import Mathlib

/-!
Shallow embedding of the elephant document repository's write path
(`postgres/query.sql.go` queries and the `PGDocStore` methods built on
them): the document / version / status / ACL data model, the Update and
Delete transactions, the archiver's status selector and archive marker,
and the active-schema listing.  Database tables are lists of row
structures; SQL statements present in the source are translated
directly; stored procedures whose bodies are not part of the source are
modelled from the specification and marked as such in their doc
comments.
-/

namespace ElephantRepo

/-- A row of the `document` table (columns used by the write path). -/
structure DocRow where
  uuid : String
  uri : String
  currentVersion : Int
  deleting : Bool
  deleteRecordId : Option Int
deriving DecidableEq, Repr

/-- A row of the `document_version` table. -/
structure VersionRow where
  uuid : String
  version : Int
  created : Nat
  creatorUri : String
  meta : Option String
  documentData : Option String
  archived : Bool
  signature : Option String
deriving DecidableEq, Repr

/-- A row of the `document_status` table. -/
structure StatusRow where
  uuid : String
  name : String
  id : Int
  version : Int
  created : Nat
  creatorUri : String
  meta : Option String
  archived : Bool
  signature : Option String
deriving DecidableEq, Repr

/-- A row of the `status_heads` table: the latest status id per
(document, name). -/
structure HeadRow where
  uuid : String
  name : String
  id : Int
deriving DecidableEq, Repr

/-- A row of the `acl` table. -/
structure AclRow where
  uuid : String
  uri : String
  permissions : List String
deriving DecidableEq, Repr

/-- A row of the `acl_audit` table; `state` is the aggregated ACL
snapshot for the document at insertion time. -/
structure AuditRow where
  uuid : String
  updated : Nat
  updaterUri : String
  state : List AclRow
deriving DecidableEq, Repr

/-- A row of the `delete_record` table. -/
structure DeleteRecordRow where
  id : Int
  uuid : String
  uri : String
  version : Int
  created : Nat
  creatorUri : String
  meta : Option String
deriving DecidableEq, Repr

/-- The visible (committed) database state relevant to the write path. -/
structure RepoState where
  documents : List DocRow
  versions : List VersionRow
  statuses : List StatusRow
  statusHeads : List HeadRow
  acl : List AclRow
  aclAudit : List AuditRow
  deleteRecords : List DeleteRecordRow
deriving DecidableEq, Repr

/-- The empty database. -/
def RepoState.empty : RepoState :=
  ⟨[], [], [], [], [], [], []⟩

/-- Errors surfaced by the store, by kind (`DocStoreErrorf` codes plus
the bare errors the Go code produces). -/
inductive RepoErr where
  | optimisticLock
  | deleteLock
  | notFound
  | marshalFailure
  | unauthenticatedContext
  | duplicateStatus
  | archiveWait
  | invalidSpecification
deriving DecidableEq, Repr

deriving instance DecidableEq for Except

/-- Result row of the `GetDocumentForUpdate` query
(`SELECT uri, current_version, deleting FROM document WHERE uuid = $1
FOR UPDATE`). -/
structure GetDocumentForUpdateRow where
  Uri : String
  CurrentVersion : Int
  Deleting : Bool
deriving DecidableEq, Repr

/-- `GetDocumentForUpdate`: the single-row lookup of the document row;
`none` models `pgx.ErrNoRows`. -/
def getDocumentForUpdate (s : RepoState) (u : String) :
    Option GetDocumentForUpdateRow :=
  (s.documents.find? (fun d => d.uuid == u)).map
    (fun d => ⟨d.uri, d.currentVersion, d.deleting⟩)

/-- Mirror of the Go struct `updatePrefligthInfo` (typo kept from the
source). -/
structure UpdatePrefligthInfo where
  Info : GetDocumentForUpdateRow
  Exists : Bool
deriving DecidableEq, Repr

/-- `(*PGDocStore).updatePreflight`: reads the document row under lock,
treats `ErrNoRows` as non-existence (zero-valued row), rejects deleting
documents, then evaluates the IfMatch precondition. -/
def updatePreflight (s : RepoState) (uuid : String) (ifMatch : Int) :
    Except RepoErr UpdatePrefligthInfo :=
  let row := getDocumentForUpdate s uuid
  let exs := row.isSome
  let info := row.getD ⟨"", 0, false⟩
  if info.Deleting then
    .error .deleteLock
  else if ifMatch = 0 then
    .ok ⟨info, exs⟩
  else if ifMatch = -1 then
    if exs then .error .optimisticLock else .ok ⟨info, exs⟩
  else if info.CurrentVersion ≠ ifMatch then
    .error .optimisticLock
  else
    .ok ⟨info, exs⟩

/-- Whether the document row exists. -/
def documentExists (s : RepoState) (u : String) : Bool :=
  (getDocumentForUpdate s u).isSome

/-- The document's current version, with the Go zero value `0` when the
row does not exist. -/
def docCurrentVersion (s : RepoState) (u : String) : Int :=
  ((getDocumentForUpdate s u).getD ⟨"", 0, false⟩).CurrentVersion

/-- Whether the document row is marked deleting (false when absent). -/
def docDeleting (s : RepoState) (u : String) : Bool :=
  ((getDocumentForUpdate s u).getD ⟨"", 0, false⟩).Deleting

/-- A concrete state with one existing document that is marked
deleting, at version 1. -/
def stateDeletingDoc : RepoState :=
  { RepoState.empty with
    documents := [⟨"u1", "doc://u1", 1, true, none⟩] }

/-- C1 counterexample: for an existing document marked deleting, an
Update preflight with IfMatch = -1 fails with DeleteLock, not
OptimisticLock, although the document exists — falsifying the claim's
biconditional "IfMatch=-1 fails with an OptimisticLock error if and
only if the document exists" as stated. -/
theorem c1_preflight_counterexample :
    documentExists stateDeletingDoc "u1" = true ∧
    updatePreflight stateDeletingDoc "u1" (-1) = .error .deleteLock ∧
    updatePreflight stateDeletingDoc "u1" (-1) ≠ .error .optimisticLock := by
  refine ⟨by decide, by decide, by decide⟩

/-- C1 (amended): the DeleteLock check takes precedence — if the
document row has deleting=true the preflight fails with DeleteLock;
otherwise IfMatch=0 imposes no precondition, IfMatch=-1 fails with
OptimisticLock iff the document exists, and IfMatch>0 fails with
OptimisticLock iff the current version differs from IfMatch. -/
theorem c1_update_preflight_ifmatch (s : RepoState) (u : String) (m : Int) :
    (docDeleting s u = true →
      updatePreflight s u m = .error .deleteLock) ∧
    (docDeleting s u = false → m = 0 →
      updatePreflight s u m = .ok ⟨(getDocumentForUpdate s u).getD ⟨"", 0, false⟩,
        documentExists s u⟩) ∧
    (docDeleting s u = false → m = -1 →
      ((updatePreflight s u m = .error .optimisticLock) ↔
        documentExists s u = true)) ∧
    (docDeleting s u = false → 0 < m →
      ((updatePreflight s u m = .error .optimisticLock) ↔
        docCurrentVersion s u ≠ m)) := by
  unfold updatePreflight docDeleting documentExists docCurrentVersion
  cases hfind : getDocumentForUpdate s u with
  | none =>
    simp only [hfind, Option.getD_none, Option.isSome_none]
    refine ⟨by simp, ?_, ?_, ?_⟩
    · intro _ hm
      subst hm
      simp
    · intro _ hm
      subst hm
      simp
    · intro _ hm
      have h0 : m ≠ 0 := by omega
      have h1 : m ≠ -1 := by omega
      have h2 : (0 : Int) ≠ m := by omega
      simp [h0, h1, h2]
  | some r =>
    simp only [hfind, Option.getD_some, Option.isSome_some]
    refine ⟨?_, ?_, ?_, ?_⟩
    · intro hdel
      simp [hdel]
    · intro hdel hm
      subst hm
      simp [hdel]
    · intro hdel hm
      subst hm
      simp [hdel]
    · intro hdel hm
      have h0 : m ≠ 0 := by omega
      have h1 : m ≠ -1 := by omega
      by_cases hv : r.CurrentVersion = m
      · simp [hdel, h0, h1, hv]
      · simp [hdel, h0, h1, hv]

/-- C1 amended-claim witness: at a concrete non-deleting document at
version 2, preflight with IfMatch=3 fails with OptimisticLock because
the current version differs. -/
theorem c1_update_preflight_ifmatch_witness :
    updatePreflight
      { RepoState.empty with documents := [⟨"u2", "doc://u2", 2, false, none⟩] }
      "u2" 3 = .error .optimisticLock :=
  ((c1_update_preflight_ifmatch
      { RepoState.empty with documents := [⟨"u2", "doc://u2", 2, false, none⟩] }
      "u2" 3).2.2.2 (by decide) (by decide)).mpr (by decide)

/-- An opaque value to be serialized for storage; `unserializable`
models a value on which `json.Marshal` fails. -/
inductive Payload where
  | json (data : String)
  | unserializable
deriving DecidableEq, Repr

/-- `json.Marshal` on an opaque payload; `none` is a marshalling
failure. -/
def marshalPayload : Payload → Option String
  | .json d => some d
  | .unserializable => none

/-- A status entry of an Update request (name, pinned version, opaque
metadata). -/
structure StatusUpdate where
  Name : String
  Version : Int
  Meta : Option Payload
deriving DecidableEq, Repr

/-- An ACL entry of an Update request. -/
structure ACLEntry where
  URI : String
  Permissions : List String
deriving DecidableEq, Repr

/-- The JWT claims carried by the auth context. -/
structure JWTClaims where
  Subject : String
deriving DecidableEq, Repr

/-- Auth info attached to the request context; `GetAuthInfo` yields it
when present. -/
structure AuthInfo where
  Claims : JWTClaims
deriving DecidableEq, Repr

/-- An Update request. -/
structure UpdateRequest where
  UUID : String
  Document : Option Payload
  Meta : Option Payload
  Status : List StatusUpdate
  ACL : List ACLEntry
  DefaultACL : List ACLEntry
  IfMatch : Int
  Updater : String
  Updated : Nat
deriving DecidableEq, Repr

/-- The result value of a successful Update. -/
structure DocumentUpdate where
  Version : Int
  Created : Nat
  Creator : String
deriving DecidableEq, Repr

/-- The head id for (document, name) as recorded in `status_heads`
(`GetDocumentHeads`); 0 when absent, matching the Go map default. -/
def headOf (s : RepoState) (u n : String) : Int :=
  ((s.statusHeads.find? (fun h => h.uuid == u && h.name == n)).map
    (fun h => h.id)).getD 0

/-- Modelled from the spec: the `create_version` stored procedure (not
part of the source) makes the document row current version equal the
new version — creating the row when no prior version exists — and
appends an unarchived, unsigned version row.  The document URI is not
among the procedure's parameters, so a fresh row gets an empty URI
here. -/
def create_version (s : RepoState) (u : String) (version : Int)
    (created : Nat) (creatorUri : String) (meta documentData : Option String) :
    RepoState :=
  let vrow : VersionRow :=
    ⟨u, version, created, creatorUri, meta, documentData, false, none⟩
  let docs :=
    if s.documents.any (fun d => d.uuid == u) then
      s.documents.map (fun d =>
        if d.uuid == u then { d with currentVersion := version } else d)
    else
      ⟨u, "", version, false, none⟩ :: s.documents
  { s with documents := docs, versions := vrow :: s.versions }

/-- Modelled from the spec: the `create_status` stored procedure (not
part of the source) inserts a status row keyed by (uuid, name, id) —
failing on a duplicate key, as an insert against the table's key must —
and transactionally updates the status head for (uuid, name) to the
added id. -/
def create_status (s : RepoState) (u n : String) (id version : Int)
    (created : Nat) (creatorUri : String) (meta : Option String) :
    Except RepoErr RepoState :=
  if s.statuses.any (fun r => r.uuid == u && r.name == n && r.id == id) then
    .error .duplicateStatus
  else
    .ok { s with
          statuses :=
            ⟨u, n, id, version, created, creatorUri, meta, false, none⟩ ::
              s.statuses,
          statusHeads :=
            ⟨u, n, id⟩ ::
              s.statusHeads.filter (fun h => !(h.uuid == u && h.name == n)) }

/-- The pre-transaction marshalling loop over the request's status
entries: entries with empty metadata are skipped (stored as null),
a marshalling failure aborts; pairs each entry with its serialized
metadata. -/
def marshalStatusMetas : List StatusUpdate → Option (List (StatusUpdate × Option String))
  | [] => some []
  | e :: rest =>
    match e.Meta with
    | none => (marshalStatusMetas rest).map (fun l => (e, none) :: l)
    | some p =>
      match marshalPayload p with
      | none => none
      | some d => (marshalStatusMetas rest).map (fun l => (e, some d) :: l)

/-- The status loop of `Update`: each entry is assigned id
`statusHeads[name] + 1` from the heads map loaded once before the loop,
a pinned version 0 becomes the version of this update, and the row is
written with `create_status`. -/
def runStatuses (u : String) (created : Nat) (creator : String)
    (upVersion : Int) (headsMap : String → Int) :
    RepoState → List (StatusUpdate × Option String) → Except RepoErr RepoState
  | s, [] => .ok s
  | s, (e, metaStr) :: rest =>
    let statusID := headsMap e.Name + 1
    let ver := if e.Version = 0 then upVersion else e.Version
    match create_status s u e.Name statusID ver created creator metaStr with
    | .error err => .error err
    | .ok s' => runStatuses u created creator upVersion headsMap s' rest

/-- `DropACL`: `DELETE FROM acl WHERE uuid = $1 AND uri = $2`. -/
def dropACL (s : RepoState) (u uri : String) : RepoState :=
  { s with acl := s.acl.filter (fun r => !(r.uuid == u && r.uri == uri)) }

/-- Modelled from the spec: the `ACLUpdate` batch query (not part of
the source) replaces the grantee's row, an upsert keyed by
(document UUID, grantee URI). -/
def aclUpdate (s : RepoState) (u uri : String) (permissions : List String) :
    RepoState :=
  { s with acl :=
      ⟨u, uri, permissions⟩ ::
        s.acl.filter (fun r => !(r.uuid == u && r.uri == uri)) }

/-- `InsertACLAuditEntry`: inserts one audit row whose state aggregates
the document's current ACL rows. -/
def insertACLAuditEntry (s : RepoState) (u : String) (updated : Nat)
    (updaterUri : String) : RepoState :=
  { s with aclAudit :=
      ⟨u, updated, updaterUri, s.acl.filter (fun r => r.uuid == u)⟩ ::
        s.aclAudit }

/-- `(*PGDocStore).updateACL`: a no-op on an empty list; otherwise
requires auth info on the context, executes drops for entries with
empty permission sets during the pass, batches the remaining upserts
after it, and records a single audit entry under the auth subject. -/
def updateACL (ctxAuth : Option AuthInfo) (now : Nat) (s : RepoState)
    (docUUID : String) (entries : List ACLEntry) : Except RepoErr RepoState :=
  if entries.isEmpty then
    .ok s
  else
    match ctxAuth with
    | none => .error .unauthenticatedContext
    | some auth =>
      let afterDrops := entries.foldl
        (fun acc e =>
          if e.Permissions.isEmpty then dropACL acc docUUID e.URI else acc) s
      let ups := entries.filter (fun e => !e.Permissions.isEmpty)
      let afterUps := ups.foldl
        (fun acc e => aclUpdate acc docUUID e.URI e.Permissions) afterDrops
      .ok (insertACLAuditEntry afterUps docUUID now auth.Claims.Subject)

/-- The version the update is associated with: the incremented current
version when a document payload is present, the current version
otherwise (`up.Version` in the Go code). -/
def upVersionOf (req : UpdateRequest) (info : UpdatePrefligthInfo) : Int :=
  if req.Document.isSome then info.Info.CurrentVersion + 1
  else info.Info.CurrentVersion

/-- The state after the optional `CreateVersion` call. -/
def stateAfterVersion (s : RepoState) (req : UpdateRequest)
    (info : UpdatePrefligthInfo) (docJSON metaJSON : Option String) :
    RepoState :=
  if req.Document.isSome then
    create_version s req.UUID (upVersionOf req info) req.Updated req.Updater
      metaJSON docJSON
  else s

/-- The ACL list the update applies: the request's list, or the default
ACL when the list is empty and the document did not exist. -/
def effectiveACL (req : UpdateRequest) (info : UpdatePrefligthInfo) :
    List ACLEntry :=
  if req.ACL.isEmpty && !info.Exists then req.DefaultACL else req.ACL

/-- The transactional body of `Update`, after all marshalling:
preflight, optional new version, status loop, ACL update (falling back
to the default ACL on first creation), returning the new state and the
result value. -/
def updateTx (ctxAuth : Option AuthInfo) (now : Nat) (s : RepoState)
    (req : UpdateRequest) (docJSON metaJSON : Option String)
    (entries : List (StatusUpdate × Option String)) :
    Except RepoErr (RepoState × DocumentUpdate) :=
  match updatePreflight s req.UUID req.IfMatch with
  | .error e => .error e
  | .ok info =>
    match runStatuses req.UUID req.Updated req.Updater (upVersionOf req info)
        (fun n => headOf (stateAfterVersion s req info docJSON metaJSON) req.UUID n)
        (stateAfterVersion s req info docJSON metaJSON) entries with
    | .error e => .error e
    | .ok s2 =>
      match updateACL ctxAuth now s2 req.UUID (effectiveACL req info) with
      | .error e => .error e
      | .ok s3 => .ok (s3, ⟨upVersionOf req info, req.Updated, req.Updater⟩)

/-- Outcome of an Update call: the visible database state after the
call, the returned value or error, and whether a transaction was ever
begun. -/
structure UpdateOutcome where
  state : RepoState
  result : Except RepoErr DocumentUpdate
  txBegun : Bool
deriving DecidableEq, Repr

/-- Serialisation of one optional value (`json.Marshal` guarded by a
presence check): absent values are stored as null, present ones must
marshal. -/
def marshalOptional : Option Payload → Option (Option String)
  | none => some none
  | some p =>
    match marshalPayload p with
    | none => none
    | some d => some (some d)

/-- The marshalling block at the top of `Update`, performed before the
transaction starts: document payload, update metadata, then the status
metadata loop; `none` is a marshalling failure. -/
def marshalUpdateInputs (req : UpdateRequest) :
    Option (Option String × Option String ×
      List (StatusUpdate × Option String)) :=
  match marshalOptional req.Document with
  | none => none
  | some docJSON =>
    match marshalOptional req.Meta with
    | none => none
    | some metaJSON =>
      match marshalStatusMetas req.Status with
      | none => none
      | some entries => some (docJSON, metaJSON, entries)

/-- `(*PGDocStore).Update`: serialisation of the document, the update
metadata and the status metadata happens before the transaction starts;
a marshalling failure returns before any transaction is begun.  The
transaction body's writes become visible only on commit: on any error
the deferred rollback leaves the visible state unchanged. -/
def Update (ctxAuth : Option AuthInfo) (now : Nat) (s : RepoState)
    (req : UpdateRequest) : UpdateOutcome :=
  match marshalUpdateInputs req with
  | none => ⟨s, .error .marshalFailure, false⟩
  | some (docJSON, metaJSON, entries) =>
    match updateTx ctxAuth now s req docJSON metaJSON entries with
    | .error e => ⟨s, .error e, true⟩
    | .ok (s', up) => ⟨s', .ok up, true⟩

/-- A Delete request. -/
structure DeleteRequest where
  UUID : String
  Meta : Option Payload
  IfMatch : Int
  Updater : String
  Updated : Nat
deriving DecidableEq, Repr

/-- `GetDocumentUnarchivedCount`: the number of unarchived status rows
plus unarchived version rows for the document. -/
def getDocumentUnarchivedCount (s : RepoState) (u : String) : Nat :=
  (s.statuses.filter (fun r => r.uuid == u && !r.archived)).length +
    (s.versions.filter (fun v => v.uuid == u && !v.archived)).length

/-- `InsertDeleteRecord`: inserts the delete record and returns its
generated id (the next value of the serial column). -/
def insertDeleteRecord (s : RepoState) (u uri : String) (version : Int)
    (created : Nat) (creatorUri : String) (meta : Option String) :
    RepoState × Int :=
  let id : Int := s.deleteRecords.length + 1
  ({ s with deleteRecords :=
      ⟨id, u, uri, version, created, creatorUri, meta⟩ :: s.deleteRecords },
   id)

/-- Modelled from the spec: the `delete_document` stored procedure (not
part of the source) marks the document row deleting=true and stores the
delete-record id on it; it removes no rows. -/
def delete_document (s : RepoState) (u : String) (_uri : String)
    (recordID : Int) : RepoState :=
  { s with documents := s.documents.map (fun d =>
      if d.uuid == u then
        { d with deleting := true, deleteRecordId := some recordID }
      else d) }

/-- `(*PGDocStore).Delete`: marshals the metadata before the
transaction, runs the same preflight as Update, succeeds at once for a
non-existent document, waits for the archiver to drain (in this
sequential model a non-zero unarchived count can never drain within the
transaction, so it is reported as blocking), then inserts the delete
record and marks the document row. -/
def Delete (s : RepoState) (req : DeleteRequest) :
    RepoState × Except RepoErr Unit :=
  match marshalOptional req.Meta with
  | none => (s, .error .marshalFailure)
  | some metaJSON =>
    match updatePreflight s req.UUID req.IfMatch with
    | .error e => (s, .error e)
    | .ok info =>
      if !info.Exists then
        (s, .ok ())
      else if getDocumentUnarchivedCount s req.UUID ≠ 0 then
        (s, .error .archiveWait)
      else
        let ins := insertDeleteRecord s req.UUID info.Info.Uri
          info.Info.CurrentVersion req.Updated req.Updater metaJSON
        (delete_document ins.1 req.UUID info.Info.Uri ins.2, .ok ())

/-- `SetDocumentStatusAsArchived`:
`UPDATE document_status SET archived = true, signature = $1::text
WHERE uuid = $2 AND id = $3` — note the WHERE clause carries no status
name. -/
def setDocumentStatusAsArchived (s : RepoState) (signature : String)
    (u : String) (id : Int) : RepoState :=
  { s with statuses := s.statuses.map (fun r =>
      if r.uuid == u && r.id == id then
        { r with archived := true, signature := some signature }
      else r) }

/-- `SetDocumentVersionAsArchived`: marks one version row archived and
stores its signature. -/
def setDocumentVersionAsArchived (s : RepoState) (signature : String)
    (u : String) (version : Int) : RepoState :=
  { s with versions := s.versions.map (fun v =>
      if v.uuid == u && v.version == version then
        { v with archived := true, signature := some signature }
      else v) }

/-- The WHERE/JOIN conditions of `GetDocumentStatusForArchiving`:
unarchived, first id or archived predecessor for the same (uuid, name),
and an inner join on a version row with a non-null signature. -/
def eligibleStatusForArchiving (s : RepoState) (r : StatusRow) : Bool :=
  !r.archived &&
    (r.id == 1 ||
      (match s.statuses.find? (fun p =>
          p.uuid == r.uuid && p.name == r.name && p.id == r.id - 1) with
       | some p => p.archived
       | none => false)) &&
    (match s.versions.find? (fun v =>
        v.uuid == r.uuid && v.version == r.version) with
     | some v => v.signature.isSome
     | none => false)

/-- `ORDER BY created ... LIMIT 1`: one row with minimal created time. -/
def minByCreated : List StatusRow → Option StatusRow
  | [] => none
  | r :: rest =>
    match minByCreated rest with
    | none => some r
    | some m => if m.created < r.created then some m else some r

/-- `GetDocumentStatusForArchiving`: the earliest-created eligible
status row, if any. -/
def getDocumentStatusForArchiving (s : RepoState) : Option StatusRow :=
  minByCreated (s.statuses.filter (eligibleStatusForArchiving s))

/-- The decoded form of a schema specification (opaque to the store). -/
structure ConstraintSet where
  raw : String
deriving DecidableEq, Repr

/-- A row of the `active_schemas` view joined with its spec, with the
spec already decoded: `none` models a spec on which `json.Unmarshal`
fails. -/
structure ActiveSchemaRow where
  Name : String
  Version : String
  Spec : Option ConstraintSet
deriving DecidableEq, Repr

/-- The `Schema` result value; the specification pointer of a returned
schema is always set by the loop. -/
structure Schema where
  Name : String
  Version : String
  Specification : ConstraintSet
deriving DecidableEq, Repr

/-- The loop of `GetActiveSchemas`: appends one schema per row to the
accumulator, failing on an undecodable spec. -/
def getActiveSchemasLoop :
    List (Option Schema) → List ActiveSchemaRow →
    Except RepoErr (List (Option Schema))
  | res, [] => .ok res
  | res, r :: rest =>
    match r.Spec with
    | none => .error .invalidSpecification
    | some spec =>
      getActiveSchemasLoop (res ++ [some ⟨r.Name, r.Version, spec⟩]) rest

/-- `(*PGDocStore).GetActiveSchemas`: allocates
`res := make([]*Schema, len(rows))` — a slice already holding
`len(rows)` nil pointers — and then appends to it. -/
def GetActiveSchemas (rows : List ActiveSchemaRow) :
    Except RepoErr (List (Option Schema)) :=
  getActiveSchemasLoop (List.replicate rows.length none) rows

/-- A state with two unarchived status rows sharing id 1 under
different names, plus the archived version they pin. -/
def stateTwoStatusNames : RepoState :=
  { RepoState.empty with
    documents := [⟨"u3", "doc://u3", 1, false, none⟩],
    versions := [⟨"u3", 1, 1, "core://user/a", none, some "{}", true, some "vsig"⟩],
    statuses :=
      [⟨"u3", "usable", 1, 1, 2, "core://user/a", none, false, none⟩,
       ⟨"u3", "done", 1, 1, 3, "core://user/a", none, false, none⟩] }

/-- C3: marking the claimed ("u3", "usable", 1) status row archived
also rewrites the ("u3", "done", 1) row — same uuid and id, different
name — setting its archived flag and storing the "usable" chain's
signature on it, because the UPDATE's WHERE clause omits the status
name.  The claim (only the identified row changes) is the spec's
intent; the code is a slip. -/
theorem c3_archive_marks_other_names :
    (setDocumentStatusAsArchived stateTwoStatusNames "sig-usable" "u3" 1).statuses =
      [⟨"u3", "usable", 1, 1, 2, "core://user/a", none, true, some "sig-usable"⟩,
       ⟨"u3", "done", 1, 1, 3, "core://user/a", none, true, some "sig-usable"⟩] := by
  decide

/-- A single active-schema row with a decodable specification. -/
def oneSchemaRow : List ActiveSchemaRow :=
  [⟨"core/article", "v1", some ⟨"spec-article"⟩⟩]

/-- C10: with exactly one stored active schema the function returns a
list of length two whose first element is nil — the
`make([]*Schema, len(rows))` allocation prepends `len(rows)` nil
entries before the appends — contradicting the intended result of
exactly the stored schemas. -/
theorem c10_get_active_schemas_nil_prefix :
    GetActiveSchemas oneSchemaRow =
      .ok [none, some ⟨"core/article", "v1", ⟨"spec-article"⟩⟩] ∧
    (GetActiveSchemas oneSchemaRow).toOption.map List.length = some 2 := by
  decide

theorem minByCreated_eq_none {l : List StatusRow}
    (h : minByCreated l = none) : l = [] := by
  cases l with
  | nil => rfl
  | cons r rest =>
    exfalso
    simp only [minByCreated] at h
    cases hrec : minByCreated rest with
    | none =>
      simp only [hrec] at h
      cases h
    | some m' =>
      simp only [hrec] at h
      by_cases hlt : m'.created < r.created
      · rw [if_pos hlt] at h
        cases h
      · rw [if_neg hlt] at h
        cases h

theorem minByCreated_mem {l : List StatusRow} :
    ∀ {m : StatusRow}, minByCreated l = some m → m ∈ l := by
  induction l with
  | nil => intro m h; simp [minByCreated] at h
  | cons r rest ih =>
    intro m h
    simp only [minByCreated] at h
    cases hrec : minByCreated rest with
    | none =>
      simp only [hrec] at h
      cases h
      exact List.Mem.head _
    | some m' =>
      simp only [hrec] at h
      by_cases hlt : m'.created < r.created
      · rw [if_pos hlt] at h
        cases h
        exact List.mem_cons_of_mem r (ih hrec)
      · rw [if_neg hlt] at h
        cases h
        exact List.Mem.head _

theorem minByCreated_le {l : List StatusRow} :
    ∀ {m : StatusRow}, minByCreated l = some m →
      ∀ x ∈ l, m.created ≤ x.created := by
  induction l with
  | nil => intro m h; simp [minByCreated] at h
  | cons r rest ih =>
    intro m h x hx
    simp only [minByCreated] at h
    cases hrec : minByCreated rest with
    | none =>
      have hrest := minByCreated_eq_none hrec
      subst hrest
      simp only [hrec] at h
      cases h
      cases List.mem_cons.mp hx with
      | inl heq => exact heq ▸ le_refl _
      | inr hmem => cases hmem
    | some m' =>
      simp only [hrec] at h
      by_cases hlt : m'.created < r.created
      · rw [if_pos hlt] at h
        cases h
        cases List.mem_cons.mp hx with
        | inl heq => exact heq ▸ le_of_lt hlt
        | inr hmem => exact ih hrec x hmem
      · rw [if_neg hlt] at h
        cases h
        cases List.mem_cons.mp hx with
        | inl heq => exact heq ▸ le_refl _
        | inr hmem => exact le_trans (not_lt.mp hlt) (ih hrec x hmem)

/-- C6: any row returned by the archiver's status selector is
unarchived, is id 1 or has an archived predecessor for the same
(document, name), pins a version that exists and is archived in the
sense the query checks it (its signature is present), and is earliest
by creation time among the eligible rows. -/
theorem c6_status_selector_sound (s : RepoState) (r : StatusRow)
    (h : getDocumentStatusForArchiving s = some r) :
    r.archived = false ∧
    (r.id = 1 ∨ ∃ p ∈ s.statuses,
      p.uuid = r.uuid ∧ p.name = r.name ∧ p.id = r.id - 1 ∧
      p.archived = true) ∧
    (∃ v ∈ s.versions,
      v.uuid = r.uuid ∧ v.version = r.version ∧ v.signature.isSome = true) ∧
    (∀ x ∈ s.statuses, eligibleStatusForArchiving s x = true →
      r.created ≤ x.created) := by
  unfold getDocumentStatusForArchiving at h
  have hmem := minByCreated_mem h
  have hfilt := List.mem_filter.mp hmem
  have helig : eligibleStatusForArchiving s r = true := hfilt.2
  unfold eligibleStatusForArchiving at helig
  rw [Bool.and_assoc, Bool.and_eq_true, Bool.and_eq_true] at helig
  obtain ⟨hunarch, hprev, hver⟩ := helig
  refine ⟨by simpa using hunarch, ?_, ?_, ?_⟩
  · rw [Bool.or_eq_true] at hprev
    cases hprev with
    | inl h1 => exact Or.inl (by simpa using h1)
    | inr hp =>
      cases hfind : s.statuses.find? (fun p =>
          p.uuid == r.uuid && p.name == r.name && p.id == r.id - 1) with
      | none => rw [hfind] at hp; cases hp
      | some p =>
        rw [hfind] at hp
        have hpmem := List.mem_of_find?_eq_some hfind
        have hppred := List.find?_some hfind
        rw [Bool.and_eq_true, Bool.and_eq_true] at hppred
        exact Or.inr ⟨p, hpmem, by simpa using hppred.1.1,
          by simpa using hppred.1.2, by simpa using hppred.2, hp⟩
  · cases hfind : s.versions.find? (fun v =>
        v.uuid == r.uuid && v.version == r.version) with
    | none => rw [hfind] at hver; cases hver
    | some v =>
      rw [hfind] at hver
      have hvmem := List.mem_of_find?_eq_some hfind
      have hvpred := List.find?_some hfind
      rw [Bool.and_eq_true] at hvpred
      exact ⟨v, hvmem, by simpa using hvpred.1, by simpa using hvpred.2, hver⟩
  · intro x hx hxelig
    exact minByCreated_le h x (List.mem_filter.mpr ⟨hx, hxelig⟩)

/-- A state where status ("u4", "usable", 2) is blocked by its
unarchived predecessor while ("u4", "usable", 1) pins a signed
version. -/
def stateArchiverPick : RepoState :=
  { RepoState.empty with
    documents := [⟨"u4", "doc://u4", 1, false, none⟩],
    versions := [⟨"u4", 1, 1, "core://user/a", none, some "{}", true, some "vsig"⟩],
    statuses :=
      [⟨"u4", "usable", 2, 1, 4, "core://user/a", none, false, none⟩,
       ⟨"u4", "usable", 1, 1, 5, "core://user/a", none, false, none⟩] }

/-- C6 witness: on a concrete state the selector picks the id-1 row
(the id-2 row's predecessor is unarchived), and the theorem applies to
it: it is unarchived. -/
theorem c6_status_selector_witness :
    getDocumentStatusForArchiving stateArchiverPick =
      some ⟨"u4", "usable", 1, 1, 5, "core://user/a", none, false, none⟩ ∧
    (⟨"u4", "usable", 1, 1, 5, "core://user/a", none, false, none⟩ :
      StatusRow).archived = false :=
  ⟨by decide,
   (c6_status_selector_sound stateArchiverPick
     ⟨"u4", "usable", 1, 1, 5, "core://user/a", none, false, none⟩
     (by decide)).1⟩

/-- C8: Update is atomic — a marshalling failure is detected before any
transaction is begun, and whenever Update returns an error the visible
state (documents, versions, statuses, ACL, audit, all of it) is
unchanged; the writes of one Update become visible only together, on
the commit in the success branch. -/
theorem c8_update_atomicity (ctxAuth : Option AuthInfo) (now : Nat)
    (s : RepoState) (req : UpdateRequest) :
    ((marshalUpdateInputs req).isNone = true →
      (Update ctxAuth now s req).txBegun = false ∧
      (Update ctxAuth now s req).result = .error .marshalFailure) ∧
    (∀ e, (Update ctxAuth now s req).result = .error e →
      (Update ctxAuth now s req).state = s) := by
  constructor
  · intro hfail
    rw [Option.isNone_iff_eq_none] at hfail
    unfold Update
    rw [hfail]
    exact ⟨rfl, rfl⟩
  · intro e herr
    unfold Update at herr ⊢
    cases hm : marshalUpdateInputs req with
    | none => rfl
    | some t =>
      obtain ⟨d, mj, es⟩ := t
      cases htx : updateTx ctxAuth now s req d mj es with
      | error e' =>
        simp only
        rw [htx]
      | ok pair =>
        obtain ⟨s', up⟩ := pair
        rw [hm] at herr
        simp only at herr
        rw [htx] at herr
        simp only at herr
        cases herr

/-- An Update request whose document payload cannot be marshalled. -/
def reqUnmarshalable : UpdateRequest :=
  ⟨"u5", some .unserializable, none, [], [], [], 0, "core://user/a", 10⟩

/-- C8 witness: on a concrete unmarshalable request no transaction is
begun, a marshalling error is returned, and the state is unchanged. -/
theorem c8_update_atomicity_witness :
    ((Update none 0 RepoState.empty reqUnmarshalable).txBegun = false ∧
      (Update none 0 RepoState.empty reqUnmarshalable).result =
        .error .marshalFailure) ∧
    (Update none 0 RepoState.empty reqUnmarshalable).state = RepoState.empty :=
  ⟨(c8_update_atomicity none 0 RepoState.empty reqUnmarshalable).1 (by decide),
   (c8_update_atomicity none 0 RepoState.empty reqUnmarshalable).2
     .marshalFailure (by decide)⟩

theorem updatePreflight_ok (s : RepoState) (u : String) (m : Int)
    (info : UpdatePrefligthInfo) (h : updatePreflight s u m = .ok info) :
    info = ⟨(getDocumentForUpdate s u).getD ⟨"", 0, false⟩,
      documentExists s u⟩ := by
  simp only [updatePreflight] at h
  simp only [documentExists]
  split at h
  · simp at h
  · split at h
    · exact (Except.ok.inj h).symm
    · split at h
      · split at h
        · simp at h
        · exact (Except.ok.inj h).symm
      · split at h
        · simp at h
        · exact (Except.ok.inj h).symm

theorem getDocumentForUpdate_eq_none (s : RepoState) (u : String)
    (h : documentExists s u = false) : getDocumentForUpdate s u = none := by
  unfold documentExists at h
  cases ho : getDocumentForUpdate s u with
  | none => rfl
  | some r =>
    rw [ho] at h
    simp at h

/-- A Delete request with IfMatch 5 against a document that does not
exist. -/
def reqDeleteIfMatch5 : DeleteRequest :=
  ⟨"u6", none, 5, "core://user/a", 20⟩

/-- C4 counterexample: a Delete request on a non-existent document does
not always return success — with IfMatch=5 the preflight compares the
zero current version against 5 and fails with OptimisticLock. -/
theorem c4_delete_counterexample :
    documentExists RepoState.empty "u6" = false ∧
    Delete RepoState.empty reqDeleteIfMatch5 =
      (RepoState.empty, .error .optimisticLock) := by
  decide

/-- C4 (amended): Delete on a non-existent document succeeds and
changes nothing when its IfMatch precondition allows it (0 or -1), but
fails with OptimisticLock when IfMatch>0; on an existing document that
passes preflight and is fully archived it inserts a delete record and
marks the document row deleting=true with that record's id, and it
removes no document, version, or status rows itself. -/
theorem c4_delete_lifecycle (s : RepoState) (req : DeleteRequest) :
    ((marshalOptional req.Meta).isSome = true →
      documentExists s req.UUID = false →
      (req.IfMatch = 0 ∨ req.IfMatch = -1) →
      Delete s req = (s, .ok ())) ∧
    ((marshalOptional req.Meta).isSome = true →
      documentExists s req.UUID = false →
      0 < req.IfMatch →
      Delete s req = (s, .error .optimisticLock)) ∧
    (∀ info : UpdatePrefligthInfo,
      (marshalOptional req.Meta).isSome = true →
      updatePreflight s req.UUID req.IfMatch = .ok info →
      info.Exists = true →
      getDocumentUnarchivedCount s req.UUID = 0 →
      (Delete s req).2 = .ok () ∧
      (Delete s req).1.deleteRecords =
        ⟨(s.deleteRecords.length : Int) + 1, req.UUID, info.Info.Uri,
          info.Info.CurrentVersion, req.Updated, req.Updater,
          (marshalOptional req.Meta).getD none⟩ :: s.deleteRecords ∧
      (∃ d ∈ (Delete s req).1.documents,
        d.uuid = req.UUID ∧ d.deleting = true ∧
        d.deleteRecordId = some ((s.deleteRecords.length : Int) + 1)) ∧
      (Delete s req).1.versions = s.versions ∧
      (Delete s req).1.statuses = s.statuses ∧
      (Delete s req).1.documents.length = s.documents.length) := by
  refine ⟨?_, ?_, ?_⟩
  · intro hms hne him
    obtain ⟨mj, hmj⟩ := Option.isSome_iff_exists.mp hms
    have hnone := getDocumentForUpdate_eq_none s req.UUID hne
    have hpre : updatePreflight s req.UUID req.IfMatch =
        .ok ⟨⟨"", 0, false⟩, false⟩ := by
      unfold updatePreflight
      rw [hnone]
      rcases him with h0 | h1
      · rw [h0]
        rfl
      · rw [h1]
        rfl
    unfold Delete
    rw [hmj]
    simp only
    rw [hpre]
    rfl
  · intro hms hne hpos
    obtain ⟨mj, hmj⟩ := Option.isSome_iff_exists.mp hms
    have hnone := getDocumentForUpdate_eq_none s req.UUID hne
    have hpre : updatePreflight s req.UUID req.IfMatch =
        .error .optimisticLock := by
      unfold updatePreflight
      rw [hnone]
      have h0 : req.IfMatch ≠ 0 := by omega
      have h1 : req.IfMatch ≠ -1 := by omega
      have h2 : (0 : Int) ≠ req.IfMatch := by omega
      simp [h0, h1, h2]
    unfold Delete
    rw [hmj]
    simp only
    rw [hpre]
  · intro info hms hpre hex hcount
    obtain ⟨mj, hmj⟩ := Option.isSome_iff_exists.mp hms
    have hinfo := updatePreflight_ok s req.UUID req.IfMatch info hpre
    have hD : Delete s req =
        (delete_document
          { s with deleteRecords :=
              ⟨(s.deleteRecords.length : Int) + 1, req.UUID, info.Info.Uri,
                info.Info.CurrentVersion, req.Updated, req.Updater, mj⟩ ::
                s.deleteRecords }
          req.UUID info.Info.Uri ((s.deleteRecords.length : Int) + 1),
         .ok ()) := by
      unfold Delete
      rw [hmj]
      simp only
      rw [hpre]
      simp only
      rw [hex]
      simp only [Bool.not_true, Bool.false_eq_true, if_false, hcount]
      simp [insertDeleteRecord]
    have hdoc : ∃ d ∈ s.documents, (d.uuid == req.UUID) = true := by
      have hexists : documentExists s req.UUID = true := by
        rw [hinfo] at hex
        exact hex
      unfold documentExists getDocumentForUpdate at hexists
      cases hf : s.documents.find? (fun d => d.uuid == req.UUID) with
      | none => rw [hf] at hexists; simp at hexists
      | some d =>
        refine ⟨d, List.mem_of_find?_eq_some hf, ?_⟩
        have hp := List.find?_some hf
        simpa using hp
    refine ⟨by rw [hD], ?_, ?_, by rw [hD]; rfl, by rw [hD]; rfl, ?_⟩
    · rw [hD]
      simp only [delete_document]
      rw [hmj]
      rfl
    · obtain ⟨d, hdmem, hduuid⟩ := hdoc
      rw [hD]
      simp only [delete_document]
      refine ⟨(fun r : DocRow =>
          if r.uuid == req.UUID then
            { r with
              deleting := true
              deleteRecordId := some ((s.deleteRecords.length : Int) + 1) }
          else r) d,
        List.mem_map_of_mem _ hdmem, ?_⟩
      simp only [hduuid, if_true]
      refine ⟨by simpa using hduuid, by simp, by simp⟩
    · rw [hD]
      simp [delete_document]

/-- A state with one fully archived document at version 2. -/
def stateDeletable : RepoState :=
  { RepoState.empty with
    documents := [⟨"u7", "doc://u7", 2, false, none⟩],
    versions :=
      [⟨"u7", 1, 1, "core://user/a", none, some "{}", true, some "s1"⟩,
       ⟨"u7", 2, 2, "core://user/a", none, some "{}", true, some "s2"⟩] }

/-- A plain Delete request for the archived document. -/
def reqDeleteU7 : DeleteRequest :=
  ⟨"u7", none, 0, "core://user/b", 30⟩

/-- C4 witness: on a concrete archived document, Delete inserts the
delete record and succeeds. -/
theorem c4_delete_lifecycle_witness :
    (Delete stateDeletable reqDeleteU7).2 = .ok () ∧
    (Delete stateDeletable reqDeleteU7).1.deleteRecords =
      [⟨1, "u7", "doc://u7", 2, 30, "core://user/b", none⟩] :=
  ⟨((c4_delete_lifecycle stateDeletable reqDeleteU7).2.2
      ⟨⟨"doc://u7", 2, false⟩, true⟩ (by decide) (by decide) (by decide)
      (by decide)).1,
   ((c4_delete_lifecycle stateDeletable reqDeleteU7).2.2
      ⟨⟨"doc://u7", 2, false⟩, true⟩ (by decide) (by decide) (by decide)
      (by decide)).2.1⟩

theorem create_status_ok {s : RepoState} {u n : String} {id ver : Int}
    {created : Nat} {creator : String} {meta : Option String} {s' : RepoState}
    (h : create_status s u n id ver created creator meta = .ok s') :
    s' = { s with
           statuses :=
             ⟨u, n, id, ver, created, creator, meta, false, none⟩ ::
               s.statuses,
           statusHeads :=
             ⟨u, n, id⟩ ::
               s.statusHeads.filter
                 (fun hd => !(hd.uuid == u && hd.name == n)) } ∧
    s.statuses.any
      (fun r => r.uuid == u && r.name == n && r.id == id) = false := by
  unfold create_status at h
  split at h
  · cases h
  · rename_i hany
    exact ⟨(Except.ok.inj h).symm, by simpa using hany⟩

theorem runStatuses_statuses_mono {u : String} {created : Nat}
    {creator : String} {upV : Int} {hm : String → Int} :
    ∀ {entries : List (StatusUpdate × Option String)} {s s' : RepoState},
      runStatuses u created creator upV hm s entries = .ok s' →
      ∀ r ∈ s.statuses, r ∈ s'.statuses := by
  intro entries
  induction entries with
  | nil =>
    intro s s' h r hr
    cases h
    exact hr
  | cons p rest ih =>
    obtain ⟨e, ms⟩ := p
    intro s s' h r hr
    simp only [runStatuses] at h
    cases hcs : create_status s u e.Name (hm e.Name + 1)
        (if e.Version = 0 then upV else e.Version) created creator ms with
    | error err =>
      rw [hcs] at h
      cases h
    | ok s1 =>
      rw [hcs] at h
      have hs1 := (create_status_ok hcs).1
      refine ih h r ?_
      rw [hs1]
      exact List.mem_cons_of_mem _ hr

theorem runStatuses_pins {u : String} {created : Nat} {creator : String}
    {upV : Int} {hm : String → Int} :
    ∀ {entries : List (StatusUpdate × Option String)} {s s' : RepoState},
      runStatuses u created creator upV hm s entries = .ok s' →
      ∀ e ∈ entries, ∃ r ∈ s'.statuses,
        r.uuid = u ∧ r.name = e.1.Name ∧
        r.version = (if e.1.Version = 0 then upV else e.1.Version) ∧
        r.creatorUri = creator ∧ r.created = created := by
  intro entries
  induction entries with
  | nil =>
    intro s s' _ e he
    cases he
  | cons p rest ih =>
    obtain ⟨e0, ms⟩ := p
    intro s s' h e he
    simp only [runStatuses] at h
    cases hcs : create_status s u e0.Name (hm e0.Name + 1)
        (if e0.Version = 0 then upV else e0.Version) created creator ms with
    | error err =>
      rw [hcs] at h
      cases h
    | ok s1 =>
      rw [hcs] at h
      have hs1 := (create_status_ok hcs).1
      cases List.mem_cons.mp he with
      | inl heq =>
        subst heq
        refine ⟨⟨u, e0.Name, hm e0.Name + 1,
          if e0.Version = 0 then upV else e0.Version,
          created, creator, ms, false, none⟩, ?_, rfl, rfl, rfl, rfl, rfl⟩
        refine runStatuses_statuses_mono h _ ?_
        rw [hs1]
        exact List.Mem.head _
      | inr hmem =>
        exact ih h e hmem

theorem foldl_dropACL_frame (u : String) :
    ∀ (l : List ACLEntry) (s : RepoState),
      (l.foldl (fun acc e =>
        if e.Permissions.isEmpty then dropACL acc u e.URI else acc) s).statuses =
          s.statuses ∧
      (l.foldl (fun acc e =>
        if e.Permissions.isEmpty then dropACL acc u e.URI else acc) s).versions =
          s.versions ∧
      (l.foldl (fun acc e =>
        if e.Permissions.isEmpty then dropACL acc u e.URI else acc) s).documents =
          s.documents ∧
      (l.foldl (fun acc e =>
        if e.Permissions.isEmpty then dropACL acc u e.URI else acc) s).statusHeads =
          s.statusHeads ∧
      (l.foldl (fun acc e =>
        if e.Permissions.isEmpty then dropACL acc u e.URI else acc) s).deleteRecords =
          s.deleteRecords ∧
      (l.foldl (fun acc e =>
        if e.Permissions.isEmpty then dropACL acc u e.URI else acc) s).aclAudit =
          s.aclAudit := by
  intro l
  induction l with
  | nil => intro s; exact ⟨rfl, rfl, rfl, rfl, rfl, rfl⟩
  | cons e rest ih =>
    intro s
    simp only [List.foldl_cons]
    by_cases hc : e.Permissions.isEmpty
    · rw [if_pos hc]
      exact ih (dropACL s u e.URI)
    · rw [if_neg hc]
      exact ih s

theorem foldl_aclUpdate_frame (u : String) :
    ∀ (l : List ACLEntry) (s : RepoState),
      (l.foldl (fun acc e => aclUpdate acc u e.URI e.Permissions) s).statuses =
          s.statuses ∧
      (l.foldl (fun acc e => aclUpdate acc u e.URI e.Permissions) s).versions =
          s.versions ∧
      (l.foldl (fun acc e => aclUpdate acc u e.URI e.Permissions) s).documents =
          s.documents ∧
      (l.foldl (fun acc e => aclUpdate acc u e.URI e.Permissions) s).statusHeads =
          s.statusHeads ∧
      (l.foldl (fun acc e => aclUpdate acc u e.URI e.Permissions) s).deleteRecords =
          s.deleteRecords ∧
      (l.foldl (fun acc e => aclUpdate acc u e.URI e.Permissions) s).aclAudit =
          s.aclAudit := by
  intro l
  induction l with
  | nil => intro s; exact ⟨rfl, rfl, rfl, rfl, rfl, rfl⟩
  | cons e rest ih =>
    intro s
    simp only [List.foldl_cons]
    exact ih (aclUpdate s u e.URI e.Permissions)

theorem updateACL_ok_frame {ctxAuth : Option AuthInfo} {now : Nat}
    {s : RepoState} {u : String} {entries : List ACLEntry} {s' : RepoState}
    (h : updateACL ctxAuth now s u entries = .ok s') :
    s'.statuses = s.statuses ∧ s'.versions = s.versions ∧
    s'.documents = s.documents ∧ s'.statusHeads = s.statusHeads ∧
    s'.deleteRecords = s.deleteRecords := by
  unfold updateACL at h
  split at h
  · cases h
    exact ⟨rfl, rfl, rfl, rfl, rfl⟩
  · cases ctxAuth with
    | none => cases h
    | some auth =>
      simp only at h
      have hs' := (Except.ok.inj h).symm
      subst hs'
      have hd := foldl_dropACL_frame u entries s
      have hu := foldl_aclUpdate_frame u
        (entries.filter (fun e => !e.Permissions.isEmpty))
        (entries.foldl (fun acc e =>
          if e.Permissions.isEmpty then dropACL acc u e.URI else acc) s)
      refine ⟨?_, ?_, ?_, ?_, ?_⟩
      · exact hu.1.trans hd.1
      · exact hu.2.1.trans hd.2.1
      · exact hu.2.2.1.trans hd.2.2.1
      · exact hu.2.2.2.1.trans hd.2.2.2.1
      · exact hu.2.2.2.2.1.trans hd.2.2.2.2.1

theorem marshalStatusMetas_fst :
    ∀ {l : List StatusUpdate} {es : List (StatusUpdate × Option String)},
      marshalStatusMetas l = some es → es.map Prod.fst = l := by
  intro l
  induction l with
  | nil =>
    intro es h
    cases h
    rfl
  | cons e rest ih =>
    intro es h
    unfold marshalStatusMetas at h
    cases hm : e.Meta with
    | none =>
      rw [hm] at h
      cases hr : marshalStatusMetas rest with
      | none => rw [hr] at h; cases h
      | some l' =>
        rw [hr] at h
        simp only [Option.map_some'] at h
        cases h
        simp [ih hr]
    | some p =>
      rw [hm] at h
      simp only at h
      cases hp : marshalPayload p with
      | none => rw [hp] at h; cases h
      | some d =>
        rw [hp] at h
        simp only at h
        cases hr : marshalStatusMetas rest with
        | none => rw [hr] at h; cases h
        | some l' =>
          rw [hr] at h
          simp only [Option.map_some'] at h
          cases h
          simp [ih hr]

theorem marshalUpdateInputs_entries {req : UpdateRequest}
    {d mj : Option String} {es : List (StatusUpdate × Option String)}
    (h : marshalUpdateInputs req = some (d, mj, es)) :
    marshalStatusMetas req.Status = some es := by
  unfold marshalUpdateInputs at h
  cases h1 : marshalOptional req.Document with
  | none => rw [h1] at h; cases h
  | some a =>
    rw [h1] at h
    simp only at h
    cases h2 : marshalOptional req.Meta with
    | none => rw [h2] at h; cases h
    | some b =>
      rw [h2] at h
      simp only at h
      cases h3 : marshalStatusMetas req.Status with
      | none => rw [h3] at h; cases h
      | some es' =>
        rw [h3] at h
        simp only at h
        cases h
        rfl

/-- C5: a successful Update returns version current+1 when the request
carries a document payload and the unchanged current version when it
does not, and every status entry of the request is stored pinning its
own pinned version, with pinned version 0 replaced by exactly the
returned version. -/
theorem c5_update_version_and_pinning (ctxAuth : Option AuthInfo) (now : Nat)
    (s : RepoState) (req : UpdateRequest) (up : DocumentUpdate)
    (h : (Update ctxAuth now s req).result = .ok up) :
    up.Version = (if req.Document.isSome then docCurrentVersion s req.UUID + 1
      else docCurrentVersion s req.UUID) ∧
    ∀ e ∈ req.Status, ∃ r ∈ (Update ctxAuth now s req).state.statuses,
      r.uuid = req.UUID ∧ r.name = e.Name ∧
      r.version = (if e.Version = 0 then up.Version else e.Version) := by
  unfold Update at h ⊢
  cases hm : marshalUpdateInputs req with
  | none =>
    rw [hm] at h
    cases h
  | some t =>
    obtain ⟨d, mj, es⟩ := t
    rw [hm] at h
    simp only at h ⊢
    cases htx : updateTx ctxAuth now s req d mj es with
    | error e =>
      rw [htx] at h
      simp only at h
      cases h
    | ok pair =>
      obtain ⟨s', up'⟩ := pair
      rw [htx] at h
      simp only at h
      cases h
      simp only
      unfold updateTx at htx
      cases hpre : updatePreflight s req.UUID req.IfMatch with
      | error e =>
        rw [hpre] at htx
        cases htx
      | ok info =>
        rw [hpre] at htx
        simp only at htx
        cases hrs : runStatuses req.UUID req.Updated req.Updater
            (upVersionOf req info)
            (fun n => headOf (stateAfterVersion s req info d mj) req.UUID n)
            (stateAfterVersion s req info d mj) es with
        | error e =>
          rw [hrs] at htx
          cases htx
        | ok s2 =>
          rw [hrs] at htx
          simp only at htx
          cases hacl : updateACL ctxAuth now s2 req.UUID
              (effectiveACL req info) with
          | error e =>
            rw [hacl] at htx
            cases htx
          | ok s3 =>
            rw [hacl] at htx
            simp only at htx
            cases htx
            have hinfo := updatePreflight_ok s req.UUID req.IfMatch info hpre
            have hcur : info.Info.CurrentVersion = docCurrentVersion s req.UUID := by
              rw [hinfo]
              rfl
            constructor
            · show upVersionOf req info = _
              unfold upVersionOf
              rw [hcur]
            · intro e he
              have hfst := marshalStatusMetas_fst
                (marshalUpdateInputs_entries hm)
              have hemem : e ∈ es.map Prod.fst := by
                rw [hfst]
                exact he
              obtain ⟨pr, hprmem, hpr⟩ := List.mem_map.mp hemem
              obtain ⟨r, hrmem, hr1, hr2, hr3, _, _⟩ :=
                runStatuses_pins hrs pr hprmem
              refine ⟨r, ?_, hr1, by rw [hr2, hpr], ?_⟩
              · rw [(updateACL_ok_frame hacl).1]
                exact hrmem
              · rw [hr3, hpr]

/-- A request creating a document with a payload and two statuses, one
pinned to 0 and one pinned to an explicit version. -/
def reqCreateWithStatuses : UpdateRequest :=
  ⟨"u8", some (.json "{doc}"), none,
    [⟨"usable", 0, none⟩, ⟨"done", 1, none⟩],
    [⟨"core://user/a", ["read", "write"]⟩], [], -1, "core://user/a", 40⟩

/-- C5 witness: on a concrete creation the returned version is 1 and
the 0-pinned entry is stored pinning version 1. -/
theorem c5_update_version_and_pinning_witness :
    (Update (some ⟨⟨"core://user/a"⟩⟩) 41 RepoState.empty
      reqCreateWithStatuses).result =
        .ok ⟨1, 40, "core://user/a"⟩ ∧
    (⟨1, 40, "core://user/a"⟩ : DocumentUpdate).Version = 1 :=
  ⟨by decide,
   by
    have hc := (c5_update_version_and_pinning (some ⟨⟨"core://user/a"⟩⟩) 41
      RepoState.empty reqCreateWithStatuses ⟨1, 40, "core://user/a"⟩
      (by decide)).1
    exact hc.trans (by decide)⟩

theorem runStatuses_frame {u : String} {created : Nat} {creator : String}
    {upV : Int} {hm : String → Int} :
    ∀ {entries : List (StatusUpdate × Option String)} {s s' : RepoState},
      runStatuses u created creator upV hm s entries = .ok s' →
      s'.acl = s.acl ∧ s'.aclAudit = s.aclAudit ∧ s'.versions = s.versions ∧
      s'.documents = s.documents ∧ s'.deleteRecords = s.deleteRecords := by
  intro entries
  induction entries with
  | nil =>
    intro s s' h
    cases h
    exact ⟨rfl, rfl, rfl, rfl, rfl⟩
  | cons p rest ih =>
    obtain ⟨e, ms⟩ := p
    intro s s' h
    simp only [runStatuses] at h
    cases hcs : create_status s u e.Name (hm e.Name + 1)
        (if e.Version = 0 then upV else e.Version) created creator ms with
    | error err =>
      rw [hcs] at h
      cases h
    | ok s1 =>
      rw [hcs] at h
      have hs1 := (create_status_ok hcs).1
      have hrec := ih h
      subst hs1
      exact hrec

theorem Update_ok_decompose {ctxAuth : Option AuthInfo} {now : Nat}
    {s : RepoState} {req : UpdateRequest} {up : DocumentUpdate}
    (h : (Update ctxAuth now s req).result = .ok up) :
    ∃ d mj es info s2 s3,
      marshalUpdateInputs req = some (d, mj, es) ∧
      updatePreflight s req.UUID req.IfMatch = .ok info ∧
      runStatuses req.UUID req.Updated req.Updater (upVersionOf req info)
        (fun n => headOf (stateAfterVersion s req info d mj) req.UUID n)
        (stateAfterVersion s req info d mj) es = .ok s2 ∧
      updateACL ctxAuth now s2 req.UUID (effectiveACL req info) = .ok s3 ∧
      (Update ctxAuth now s req).state = s3 ∧
      up = ⟨upVersionOf req info, req.Updated, req.Updater⟩ := by
  unfold Update at h ⊢
  cases hm : marshalUpdateInputs req with
  | none =>
    rw [hm] at h
    cases h
  | some t =>
    obtain ⟨d, mj, es⟩ := t
    rw [hm] at h
    simp only at h ⊢
    cases htx : updateTx ctxAuth now s req d mj es with
    | error e =>
      rw [htx] at h
      simp only at h
      cases h
    | ok pair =>
      obtain ⟨s', up'⟩ := pair
      rw [htx] at h
      simp only at h
      cases h
      simp only
      unfold updateTx at htx
      cases hpre : updatePreflight s req.UUID req.IfMatch with
      | error e =>
        rw [hpre] at htx
        cases htx
      | ok info =>
        rw [hpre] at htx
        simp only at htx
        cases hrs : runStatuses req.UUID req.Updated req.Updater
            (upVersionOf req info)
            (fun n => headOf (stateAfterVersion s req info d mj) req.UUID n)
            (stateAfterVersion s req info d mj) es with
        | error e =>
          rw [hrs] at htx
          cases htx
        | ok s2 =>
          rw [hrs] at htx
          simp only at htx
          cases hacl : updateACL ctxAuth now s2 req.UUID
              (effectiveACL req info) with
          | error e =>
            rw [hacl] at htx
            cases htx
          | ok s3 =>
            rw [hacl] at htx
            simp only at htx
            cases htx
            exact ⟨d, mj, es, info, s2, _, rfl, rfl, hrs, hacl, rfl, rfl⟩

theorem updateACL_empty {ctxAuth : Option AuthInfo} {now : Nat}
    {s : RepoState} {u : String} :
    updateACL ctxAuth now s u [] = .ok s := by
  rfl

theorem updateACL_unauthenticated {now : Nat} {s : RepoState} {u : String}
    {entries : List ACLEntry} (hne : entries.isEmpty = false) :
    updateACL none now s u entries = .error .unauthenticatedContext := by
  unfold updateACL
  rw [hne]
  rfl

theorem updateACL_ok_some {now : Nat} {s : RepoState} {u : String}
    {entries : List ACLEntry} {auth : AuthInfo} {s' : RepoState}
    (hne : entries.isEmpty = false)
    (h : updateACL (some auth) now s u entries = .ok s') :
    s' = insertACLAuditEntry
      ((entries.filter (fun e => !e.Permissions.isEmpty)).foldl
        (fun acc e => aclUpdate acc u e.URI e.Permissions)
        (entries.foldl (fun acc e =>
          if e.Permissions.isEmpty then dropACL acc u e.URI else acc) s))
      u now auth.Claims.Subject := by
  unfold updateACL at h
  rw [hne] at h
  simp only at h
  exact (Except.ok.inj h).symm

theorem foldl_dropACL_subset (u : String) :
    ∀ (l : List ACLEntry) (s : RepoState) (r : AclRow),
      r ∈ (l.foldl (fun acc e =>
        if e.Permissions.isEmpty then dropACL acc u e.URI else acc) s).acl →
      r ∈ s.acl := by
  intro l
  induction l with
  | nil => intro s r h; exact h
  | cons e rest ih =>
    intro s r h
    simp only [List.foldl_cons] at h
    by_cases hc : e.Permissions.isEmpty
    · rw [if_pos hc] at h
      have hmem := ih _ _ h
      simp only [dropACL] at hmem
      exact (List.mem_filter.mp hmem).1
    · rw [if_neg hc] at h
      exact ih _ _ h

theorem foldl_dropACL_removes (u : String) :
    ∀ (l : List ACLEntry) (s : RepoState) (e : ACLEntry),
      e ∈ l → e.Permissions.isEmpty = true →
      ∀ r ∈ (l.foldl (fun acc e =>
        if e.Permissions.isEmpty then dropACL acc u e.URI else acc) s).acl,
        ¬(r.uuid = u ∧ r.uri = e.URI) := by
  intro l
  induction l with
  | nil => intro s e he; cases he
  | cons e0 rest ih =>
    intro s e he hemp r hr
    simp only [List.foldl_cons] at hr
    cases List.mem_cons.mp he with
    | inl heq =>
      subst heq
      rw [if_pos hemp] at hr
      have hsub := foldl_dropACL_subset u rest _ r hr
      simp only [dropACL, List.mem_filter] at hsub
      rintro ⟨h1, h2⟩
      have hneq := hsub.2
      simp [h1, h2] at hneq
    | inr hmem =>
      by_cases hc : e0.Permissions.isEmpty
      · rw [if_pos hc] at hr
        exact ih _ e hmem hemp r hr
      · rw [if_neg hc] at hr
        exact ih _ e hmem hemp r hr

theorem foldl_aclUpdate_subset (u : String) :
    ∀ (l : List ACLEntry) (s : RepoState) (r : AclRow),
      r ∈ (l.foldl (fun acc e => aclUpdate acc u e.URI e.Permissions) s).acl →
      r ∈ s.acl ∨ ∃ e ∈ l, r = ⟨u, e.URI, e.Permissions⟩ := by
  intro l
  induction l with
  | nil => intro s r h; exact Or.inl h
  | cons e0 rest ih =>
    intro s r h
    simp only [List.foldl_cons] at h
    rcases ih _ _ h with h1 | ⟨e, he, heq⟩
    · simp only [aclUpdate] at h1
      cases List.mem_cons.mp h1 with
      | inl heq => exact Or.inr ⟨e0, List.Mem.head _, heq⟩
      | inr hmem => exact Or.inl (List.mem_filter.mp hmem).1
    · exact Or.inr ⟨e, List.mem_cons_of_mem _ he, heq⟩

theorem foldl_aclUpdate_preserve (u : String) :
    ∀ (l : List ACLEntry) (s : RepoState) (r : AclRow),
      r ∈ s.acl → (∀ e ∈ l, ¬(r.uuid = u ∧ r.uri = e.URI)) →
      r ∈ (l.foldl (fun acc e => aclUpdate acc u e.URI e.Permissions) s).acl := by
  intro l
  induction l with
  | nil => intro s r hr _; exact hr
  | cons e0 rest ih =>
    intro s r hr hno
    simp only [List.foldl_cons]
    apply ih
    · simp only [aclUpdate]
      apply List.mem_cons_of_mem
      apply List.mem_filter.mpr
      refine ⟨hr, ?_⟩
      have hno0 := hno e0 (List.Mem.head _)
      cases hu : r.uuid == u with
      | false => simp [hu]
      | true =>
        cases hv : r.uri == e0.URI with
        | false => simp [hu, hv]
        | true =>
          exfalso
          exact hno0 ⟨by simpa using hu, by simpa using hv⟩
    · intro e he
      exact hno e (List.mem_cons_of_mem _ he)

theorem foldl_aclUpdate_mem (u : String) :
    ∀ (l : List ACLEntry) (s : RepoState) (e : ACLEntry),
      e ∈ l → (l.map ACLEntry.URI).Nodup →
      (⟨u, e.URI, e.Permissions⟩ : AclRow) ∈
        (l.foldl (fun acc e => aclUpdate acc u e.URI e.Permissions) s).acl := by
  intro l
  induction l with
  | nil => intro s e he; cases he
  | cons e0 rest ih =>
    intro s e he hnd
    simp only [List.map_cons, List.nodup_cons] at hnd
    simp only [List.foldl_cons]
    cases List.mem_cons.mp he with
    | inl heq =>
      subst heq
      apply foldl_aclUpdate_preserve
      · simp only [aclUpdate]
        exact List.Mem.head _
      · intro e' he'
        rintro ⟨_, h2⟩
        apply hnd.1
        rw [show (⟨u, e.URI, e.Permissions⟩ : AclRow).uri = e.URI from rfl] at h2
        rw [h2]
        exact List.mem_map_of_mem _ he'
    | inr hmem =>
      exact ih _ e hmem hnd.2

theorem stateAfterVersion_frame (s : RepoState) (req : UpdateRequest)
    (info : UpdatePrefligthInfo) (d mj : Option String) :
    (stateAfterVersion s req info d mj).acl = s.acl ∧
    (stateAfterVersion s req info d mj).aclAudit = s.aclAudit ∧
    (stateAfterVersion s req info d mj).statuses = s.statuses ∧
    (stateAfterVersion s req info d mj).statusHeads = s.statusHeads ∧
    (stateAfterVersion s req info d mj).deleteRecords = s.deleteRecords := by
  unfold stateAfterVersion
  split
  · exact ⟨rfl, rfl, rfl, rfl, rfl⟩
  · exact ⟨rfl, rfl, rfl, rfl, rfl⟩

/-- A request creating a document with no ACL entries and no default
ACL. -/
def reqCreateNoACL : UpdateRequest :=
  ⟨"u9", some (.json "{}"), none, [], [], [], -1, "core://user/a", 50⟩

/-- C7 counterexample: an Update that creates a document with an empty
ACL list and an empty default ACL succeeds and writes no audit entry at
all — the claim's "otherwise … exactly one audit entry is written per
Update" fails for this request, which falls into its "otherwise" branch
because the document did not exist. -/
theorem c7_acl_counterexample :
    documentExists RepoState.empty "u9" = false ∧
    reqCreateNoACL.ACL = [] ∧
    (Update none 0 RepoState.empty reqCreateNoACL).result =
      .ok ⟨1, 50, "core://user/a"⟩ ∧
    (Update none 0 RepoState.empty reqCreateNoACL).state.aclAudit = [] := by
  decide

/-- C7 (amended): if the request's ACL list is empty and the document
exists, a successful Update changes no ACL row and writes no audit
entry; when the effective ACL list (the request's list, or the default
ACL on first creation) is non-empty, a successful Update writes exactly
one audit entry snapshotting the resulting ACL state of the document,
and — for entries with pairwise-distinct grantee URIs, as the upsert
key (document UUID, grantee URI) presumes — every listed entry with an
empty permission set ends with the grantee's row absent and every entry
with permissions ends with the grantee's row present with exactly
those permissions; when the effective list is empty (first creation
with neither ACL nor default ACL) nothing is written. -/
theorem c7_update_acl_handling (ctxAuth : Option AuthInfo) (now : Nat)
    (s : RepoState) (req : UpdateRequest) :
    (∀ up, req.ACL = [] → documentExists s req.UUID = true →
      (Update ctxAuth now s req).result = .ok up →
      (Update ctxAuth now s req).state.acl = s.acl ∧
      (Update ctxAuth now s req).state.aclAudit = s.aclAudit) ∧
    (∀ up auth info, ctxAuth = some auth →
      updatePreflight s req.UUID req.IfMatch = .ok info →
      effectiveACL req info ≠ [] →
      (Update ctxAuth now s req).result = .ok up →
      ∃ entry : AuditRow,
        (Update ctxAuth now s req).state.aclAudit = entry :: s.aclAudit ∧
        entry.uuid = req.UUID ∧
        entry.state = (Update ctxAuth now s req).state.acl.filter
          (fun r => r.uuid == req.UUID)) ∧
    (∀ up auth info, ctxAuth = some auth →
      updatePreflight s req.UUID req.IfMatch = .ok info →
      ((effectiveACL req info).map ACLEntry.URI).Nodup →
      (Update ctxAuth now s req).result = .ok up →
      ∀ e ∈ effectiveACL req info,
        (e.Permissions = [] →
          ∀ r ∈ (Update ctxAuth now s req).state.acl,
            ¬(r.uuid = req.UUID ∧ r.uri = e.URI)) ∧
        (e.Permissions ≠ [] →
          (⟨req.UUID, e.URI, e.Permissions⟩ : AclRow) ∈
            (Update ctxAuth now s req).state.acl)) := by
  refine ⟨?_, ?_, ?_⟩
  · intro up hACL hex hok
    obtain ⟨d, mj, es, info, s2, s3, hm, hpre, hrs, hacl, hstate, hup⟩ :=
      Update_ok_decompose hok
    have hinfo := updatePreflight_ok s req.UUID req.IfMatch info hpre
    have hexi : info.Exists = true := by
      rw [hinfo]
      exact hex
    have heff : effectiveACL req info = [] := by
      unfold effectiveACL
      rw [hexi]
      simp [hACL]
    rw [heff, updateACL_empty] at hacl
    have hs23 : s2 = s3 := Except.ok.inj hacl
    have hsv := stateAfterVersion_frame s req info d mj
    have hrf := runStatuses_frame hrs
    rw [hstate, ← hs23]
    exact ⟨hrf.1.trans hsv.1, hrf.2.1.trans hsv.2.1⟩
  · intro up auth info hauth hpre heff hok
    subst hauth
    obtain ⟨d, mj, es, info', s2, s3, hm, hpre', hrs, hacl, hstate, hup⟩ :=
      Update_ok_decompose hok
    have hii : info' = info := Except.ok.inj (hpre'.symm.trans hpre)
    subst hii
    have hne : (effectiveACL req info').isEmpty = false := by
      cases heq : effectiveACL req info' with
      | nil => exact absurd heq heff
      | cons a l => rfl
    have hshape := updateACL_ok_some hne hacl
    have hsv := stateAfterVersion_frame s req info' d mj
    have hrf := runStatuses_frame hrs
    have hdropsAudit := (foldl_dropACL_frame req.UUID
      (effectiveACL req info') s2).2.2.2.2.2
    have hupsAudit := (foldl_aclUpdate_frame req.UUID
      ((effectiveACL req info').filter (fun e => !e.Permissions.isEmpty))
      ((effectiveACL req info').foldl (fun acc e =>
        if e.Permissions.isEmpty then dropACL acc req.UUID e.URI else acc)
        s2)).2.2.2.2.2
    rw [hstate, hshape]
    refine ⟨⟨req.UUID, now, auth.Claims.Subject, _⟩, ?_, rfl, rfl⟩
    simp only [insertACLAuditEntry]
    rw [hupsAudit, hdropsAudit, hrf.2.1, hsv.2.1]
  · intro up auth info hauth hpre hnd hok e he
    subst hauth
    obtain ⟨d, mj, es, info', s2, s3, hm, hpre', hrs, hacl, hstate, hup⟩ :=
      Update_ok_decompose hok
    have hii : info' = info := Except.ok.inj (hpre'.symm.trans hpre)
    subst hii
    have hne : (effectiveACL req info').isEmpty = false := by
      cases heq : effectiveACL req info' with
      | nil => rw [heq] at he; cases he
      | cons a l => rfl
    have hshape := updateACL_ok_some hne hacl
    have hsacl : (Update (some auth) now s req).state.acl =
        (((effectiveACL req info').filter
          (fun e => !e.Permissions.isEmpty)).foldl
          (fun acc e => aclUpdate acc req.UUID e.URI e.Permissions)
          ((effectiveACL req info').foldl (fun acc e =>
            if e.Permissions.isEmpty then dropACL acc req.UUID e.URI else acc)
            s2)).acl := by
      rw [hstate, hshape]
      rfl
    constructor
    · intro hempty r hr
      rw [hsacl] at hr
      rcases foldl_aclUpdate_subset req.UUID _ _ _ hr with h1 | ⟨e', he', heq⟩
      · exact foldl_dropACL_removes req.UUID _ _ e he (by simp [hempty]) r h1
      · rintro ⟨h1, h2⟩
        have he'mem := (List.mem_filter.mp he').1
        have he'perm := (List.mem_filter.mp he').2
        have huri : e'.URI = e.URI := by
          rw [heq] at h2
          exact h2
        have hee : e = e' :=
          List.inj_on_of_nodup_map hnd he he'mem huri.symm
        rw [← hee] at he'perm
        simp [hempty] at he'perm
    · intro hneperm
      rw [hsacl]
      apply foldl_aclUpdate_mem
      · exact List.mem_filter.mpr ⟨he, by simp [hneperm]⟩
      · refine List.Nodup.sublist ?_ hnd
        exact (List.filter_sublist _).map _

/-- A state with one document and one pre-existing ACL row. -/
def stateOneDoc10 : RepoState :=
  { RepoState.empty with
    documents := [⟨"u10", "doc://u10", 1, false, none⟩],
    acl := [⟨"u10", "core://user/old", ["read"]⟩] }

/-- An Update that drops one grantee and adds another. -/
def reqACLU10 : UpdateRequest :=
  ⟨"u10", none, none, [],
    [⟨"core://user/old", []⟩, ⟨"core://user/new", ["read"]⟩], [],
    0, "core://user/a", 60⟩

/-- C7 witness: on a concrete document the ACL update succeeds and the
theorem yields the single new audit entry snapshotting the resulting
ACL. -/
theorem c7_update_acl_handling_witness :
    (Update (some ⟨⟨"core://sub/s"⟩⟩) 61 stateOneDoc10 reqACLU10).result =
      .ok ⟨1, 60, "core://user/a"⟩ ∧
    ∃ entry : AuditRow,
      (Update (some ⟨⟨"core://sub/s"⟩⟩) 61 stateOneDoc10
        reqACLU10).state.aclAudit = entry :: stateOneDoc10.aclAudit ∧
      entry.uuid = "u10" ∧
      entry.state = (Update (some ⟨⟨"core://sub/s"⟩⟩) 61 stateOneDoc10
        reqACLU10).state.acl.filter (fun r => r.uuid == "u10") :=
  ⟨by decide,
   (c7_update_acl_handling (some ⟨⟨"core://sub/s"⟩⟩) 61 stateOneDoc10
     reqACLU10).2.1 ⟨1, 60, "core://user/a"⟩ ⟨⟨"core://sub/s"⟩⟩
     ⟨⟨"doc://u10", 1, false⟩, true⟩ rfl (by decide) (by decide) (by decide)⟩

/-- C9: when the effective ACL list of an Update is non-empty and the
context carries no auth info, the operation fails with the
"unauthenticated context" error even though the request carries an
updater URI; and on success under an authenticated context the new
audit entry's updater is the auth context's subject claim, not the
request's updater field. -/
theorem c9_update_acl_auth_context (now : Nat) (s : RepoState)
    (req : UpdateRequest) :
    (∀ d mj es info s2,
      marshalUpdateInputs req = some (d, mj, es) →
      updatePreflight s req.UUID req.IfMatch = .ok info →
      runStatuses req.UUID req.Updated req.Updater (upVersionOf req info)
        (fun n => headOf (stateAfterVersion s req info d mj) req.UUID n)
        (stateAfterVersion s req info d mj) es = .ok s2 →
      effectiveACL req info ≠ [] →
      req.Updater ≠ "" →
      (Update none now s req).result = .error .unauthenticatedContext) ∧
    (∀ auth up info,
      updatePreflight s req.UUID req.IfMatch = .ok info →
      effectiveACL req info ≠ [] →
      (Update (some auth) now s req).result = .ok up →
      ∃ entry : AuditRow,
        (Update (some auth) now s req).state.aclAudit =
          entry :: s.aclAudit ∧
        entry.updaterUri = auth.Claims.Subject) := by
  constructor
  · intro d mj es info s2 hm hpre hrs heff _
    have hne : (effectiveACL req info).isEmpty = false := by
      cases heq : effectiveACL req info with
      | nil => exact absurd heq heff
      | cons a l => rfl
    have htx : updateTx none now s req d mj es =
        .error .unauthenticatedContext := by
      unfold updateTx
      rw [hpre]
      simp only
      rw [hrs]
      simp only
      rw [updateACL_unauthenticated hne]
    unfold Update
    rw [hm]
    simp only
    rw [htx]
  · intro auth up info hpre heff hok
    obtain ⟨d, mj, es, info', s2, s3, hm, hpre', hrs, hacl, hstate, hup⟩ :=
      Update_ok_decompose hok
    have hii : info' = info := Except.ok.inj (hpre'.symm.trans hpre)
    subst hii
    have hne : (effectiveACL req info').isEmpty = false := by
      cases heq : effectiveACL req info' with
      | nil => exact absurd heq heff
      | cons a l => rfl
    have hshape := updateACL_ok_some hne hacl
    have hsv := stateAfterVersion_frame s req info' d mj
    have hrf := runStatuses_frame hrs
    have hdropsAudit := (foldl_dropACL_frame req.UUID
      (effectiveACL req info') s2).2.2.2.2.2
    have hupsAudit := (foldl_aclUpdate_frame req.UUID
      ((effectiveACL req info').filter (fun e => !e.Permissions.isEmpty))
      ((effectiveACL req info').foldl (fun acc e =>
        if e.Permissions.isEmpty then dropACL acc req.UUID e.URI else acc)
        s2)).2.2.2.2.2
    rw [hstate, hshape]
    set X := ((effectiveACL req info').filter
        (fun e => !e.Permissions.isEmpty)).foldl
      (fun acc e => aclUpdate acc req.UUID e.URI e.Permissions)
      ((effectiveACL req info').foldl (fun acc e =>
        if e.Permissions.isEmpty then dropACL acc req.UUID e.URI else acc)
        s2) with hX
    refine ⟨⟨req.UUID, now, auth.Claims.Subject,
      X.acl.filter (fun r => r.uuid == req.UUID)⟩, ?_, rfl⟩
    simp only [insertACLAuditEntry]
    rw [hupsAudit, hdropsAudit, hrf.2.1, hsv.2.1]

/-- C9 witness: on a concrete request with a non-empty ACL list and an
updater URI, an unauthenticated context makes Update fail with the
"unauthenticated context" error. -/
theorem c9_update_acl_auth_context_witness :
    (Update none 62 stateOneDoc10 reqACLU10).result =
      .error .unauthenticatedContext :=
  (c9_update_acl_auth_context 62 stateOneDoc10 reqACLU10).1
    none none [] ⟨⟨"doc://u10", 1, false⟩, true⟩ stateOneDoc10
    (by decide) (by decide) rfl (by decide) (by decide)

/-- Every status head id is at least 1 (heads only ever record the id
of an inserted status row). -/
def headsPositive (s : RepoState) : Prop :=
  ∀ h ∈ s.statusHeads, 1 ≤ h.id

/-- No two status rows share the key (uuid, name, id). -/
def statusKeysPairwise (s : RepoState) : Prop :=
  s.statuses.Pairwise
    (fun r1 r2 => ¬(r1.uuid = r2.uuid ∧ r1.name = r2.name ∧ r1.id = r2.id))

/-- For every (document, name) the set of status ids is exactly
1..head: the ids form a gapless sequence whose length is the recorded
head. -/
def statusRangeInv (s : RepoState) : Prop :=
  ∀ u n i, (∃ r ∈ s.statuses, r.uuid = u ∧ r.name = n ∧ r.id = i) ↔
    (1 ≤ i ∧ i ≤ headOf s u n)

/-- The status-chain invariant of the data model. -/
def statusInv (s : RepoState) : Prop :=
  headsPositive s ∧ statusKeysPairwise s ∧ statusRangeInv s

theorem headOf_nonneg {s : RepoState} (h : headsPositive s) (u n : String) :
    0 ≤ headOf s u n := by
  unfold headOf
  cases hf : s.statusHeads.find? (fun hd => hd.uuid == u && hd.name == n) with
  | none => simp
  | some hd =>
    simp only [Option.map_some', Option.getD_some]
    have := h hd (List.mem_of_find?_eq_some hf)
    omega

theorem find?_filter_of_imp {α : Type} (p q : α → Bool) :
    ∀ (l : List α), (∀ x, p x = true → q x = true) →
      (l.filter q).find? p = l.find? p := by
  intro l
  induction l with
  | nil => intro _; rfl
  | cons x xs ih =>
    intro himp
    by_cases hq : q x = true
    · rw [List.filter_cons_of_pos hq]
      by_cases hp : p x = true
      · rw [List.find?_cons_of_pos _ hp, List.find?_cons_of_pos _ hp]
      · rw [List.find?_cons_of_neg _ hp, List.find?_cons_of_neg _ hp]
        exact ih himp
    · rw [List.filter_cons_of_neg hq]
      have hp : ¬p x = true := fun hpx => hq (himp x hpx)
      rw [List.find?_cons_of_neg _ hp]
      exact ih himp

theorem headOf_congr {s t : RepoState} (h : s.statusHeads = t.statusHeads)
    (u n : String) : headOf s u n = headOf t u n := by
  unfold headOf
  rw [h]

theorem headOf_cons_filter_eq (s : RepoState) (sts : List StatusRow)
    (u n : String) (id : Int) :
    headOf { s with
      statuses := sts,
      statusHeads := ⟨u, n, id⟩ ::
        s.statusHeads.filter (fun hd => !(hd.uuid == u && hd.name == n)) }
      u n = id := by
  unfold headOf
  rw [List.find?_cons_of_pos _ (by simp)]
  rfl

theorem headOf_cons_filter_ne (s : RepoState) (sts : List StatusRow)
    (u n : String) (id : Int) (u' n' : String)
    (hne : ¬(u = u' ∧ n = n')) :
    headOf { s with
      statuses := sts,
      statusHeads := ⟨u, n, id⟩ ::
        s.statusHeads.filter (fun hd => !(hd.uuid == u && hd.name == n)) }
      u' n' = headOf s u' n' := by
  unfold headOf
  rw [List.find?_cons_of_neg _ (by
    simp only [Bool.and_eq_true, beq_iff_eq]
    rintro ⟨h1, h2⟩
    exact hne ⟨h1, h2⟩)]
  rw [find?_filter_of_imp]
  intro hd hp
  simp only [Bool.and_eq_true, beq_iff_eq] at hp
  simp only [Bool.not_eq_true', Bool.and_eq_false_iff]
  by_cases hu : u = u'
  · have hn : ¬n = n' := fun hn => hne ⟨hu, hn⟩
    right
    rw [hp.2]
    simpa using fun hcon => hn hcon.symm
  · left
    rw [hp.1]
    simpa using fun hcon => hu hcon.symm

theorem statusInv_congr {s t : RepoState} (hs : s.statuses = t.statuses)
    (hh : s.statusHeads = t.statusHeads) (h : statusInv s) : statusInv t := by
  obtain ⟨h1, h2, h3⟩ := h
  refine ⟨?_, ?_, ?_⟩
  · intro x hx
    rw [← hh] at hx
    exact h1 x hx
  · unfold statusKeysPairwise
    rw [← hs]
    exact h2
  · intro u n i
    rw [← hs, ← headOf_congr hh]
    exact h3 u n i

theorem statusInv_insert (s : RepoState) (u n : String) (ver : Int)
    (created : Nat) (creator : String) (meta : Option String)
    (hinv : statusInv s) :
    statusInv { s with
      statuses :=
        ⟨u, n, headOf s u n + 1, ver, created, creator, meta, false, none⟩ ::
          s.statuses,
      statusHeads := ⟨u, n, headOf s u n + 1⟩ ::
        s.statusHeads.filter (fun hd => !(hd.uuid == u && hd.name == n)) } := by
  obtain ⟨hpos', hpw, hrange⟩ := hinv
  have hpos : 0 ≤ headOf s u n := headOf_nonneg hpos' u n
  refine ⟨?_, ?_, ?_⟩
  · intro h hh
    cases List.mem_cons.mp hh with
    | inl heq =>
      subst heq
      simp only
      omega
    | inr hmem =>
      exact hpos' h (List.mem_filter.mp hmem).1
  · unfold statusKeysPairwise
    rw [List.pairwise_cons]
    refine ⟨?_, hpw⟩
    intro r hr
    rintro ⟨h1, h2, h3⟩
    have hcontra : 1 ≤ headOf s u n + 1 ∧ headOf s u n + 1 ≤ headOf s u n := by
      apply (hrange u n (headOf s u n + 1)).mp
      exact ⟨r, hr, h1.symm, h2.symm, h3.symm⟩
    omega
  · intro u' n' i
    by_cases hkey : u' = u ∧ n' = n
    · obtain ⟨hu, hn⟩ := hkey
      subst hu
      subst hn
      rw [headOf_cons_filter_eq]
      constructor
      · rintro ⟨r, hr, h1, h2, h3⟩
        cases List.mem_cons.mp hr with
        | inl heq =>
          subst heq
          simp only at h3
          omega
        | inr hmem =>
          have := (hrange u' n' i).mp ⟨r, hmem, h1, h2, h3⟩
          omega
      · rintro ⟨hi1, hi2⟩
        by_cases hieq : i = headOf s u' n' + 1
        · exact ⟨⟨u', n', headOf s u' n' + 1, ver, created, creator, meta,
            false, none⟩, List.Mem.head _, rfl, rfl, hieq.symm⟩
        · have hrng : 1 ≤ i ∧ i ≤ headOf s u' n' := by omega
          obtain ⟨r, hr, hh1, hh2, hh3⟩ := (hrange u' n' i).mpr hrng
          exact ⟨r, List.mem_cons_of_mem _ hr, hh1, hh2, hh3⟩
    · rw [headOf_cons_filter_ne s _ u n _ u' n'
        (fun hc : u = u' ∧ n = n' => hkey ⟨hc.1.symm, hc.2.symm⟩)]
      constructor
      · rintro ⟨r, hr, h1, h2, h3⟩
        cases List.mem_cons.mp hr with
        | inl heq =>
          subst heq
          simp only at h1 h2
          exact absurd (⟨h1.symm, h2.symm⟩ : u' = u ∧ n' = n) hkey
        | inr hmem =>
          exact (hrange u' n' i).mp ⟨r, hmem, h1, h2, h3⟩
      · intro hi
        obtain ⟨r, hr, hh1, hh2, hh3⟩ := (hrange u' n' i).mpr hi
        exact ⟨r, List.mem_cons_of_mem _ hr, hh1, hh2, hh3⟩

theorem runStatuses_inv (u : String) (created : Nat) (creator : String)
    (upV : Int) (hm : String → Int) :
    ∀ (entries : List (StatusUpdate × Option String)) (s s' : RepoState),
      runStatuses u created creator upV hm s entries = .ok s' →
      statusInv s →
      (∀ n', 0 ≤ hm n') →
      (∀ n', hm n' ≤ headOf s u n' ∧ headOf s u n' ≤ hm n' + 1) →
      statusInv s' := by
  intro entries
  induction entries with
  | nil =>
    intro s s' h hinv _ _
    cases h
    exact hinv
  | cons p rest ih =>
    obtain ⟨e, ms⟩ := p
    intro s s' h hinv hmpos hbounds
    simp only [runStatuses] at h
    cases hcs : create_status s u e.Name (hm e.Name + 1)
        (if e.Version = 0 then upV else e.Version) created creator ms with
    | error err =>
      rw [hcs] at h
      cases h
    | ok s1 =>
      rw [hcs] at h
      obtain ⟨hs1, hany⟩ := create_status_ok hcs
      obtain ⟨hpos', hpw, hrange⟩ := hinv
      have hnorow : ¬∃ r ∈ s.statuses,
          r.uuid = u ∧ r.name = e.Name ∧ r.id = hm e.Name + 1 := by
        rintro ⟨r, hr, h1, h2, h3⟩
        have hfalse := List.any_eq_false.mp hany r hr
        simp [h1, h2, h3] at hfalse
      have h1le : (1 : Int) ≤ hm e.Name + 1 := by
        have := hmpos e.Name
        omega
      have hlt : ¬(hm e.Name + 1 ≤ headOf s u e.Name) := by
        intro hb
        exact hnorow ((hrange u e.Name (hm e.Name + 1)).mpr ⟨h1le, hb⟩)
      have hhead : headOf s u e.Name = hm e.Name := by
        have := (hbounds e.Name).1
        omega
      rw [← hhead] at hs1
      have hinv1 : statusInv s1 := by
        rw [hs1]
        exact statusInv_insert s u e.Name
          (if e.Version = 0 then upV else e.Version) created creator ms
          ⟨hpos', hpw, hrange⟩
      have hbounds1 : ∀ n',
          hm n' ≤ headOf s1 u n' ∧ headOf s1 u n' ≤ hm n' + 1 := by
        intro n'
        by_cases hn : n' = e.Name
        · subst hn
          rw [hs1, headOf_cons_filter_eq]
          exact ⟨by omega, by omega⟩
        · rw [hs1, headOf_cons_filter_ne s _ u e.Name _ u n'
            (fun hc : u = u ∧ e.Name = n' => hn hc.2.symm)]
          exact hbounds n'
      exact ih s1 s' h hinv1 hmpos hbounds1

/-- C2: the status-chain invariant — for every (document, name) the
status ids are exactly the gapless sequence 1..K where K is the
recorded head, and no two status rows for the same (document, name)
share an id — is preserved by every successful Update, whose status
entries are each assigned id head+1 for their name.  (An Update whose
status list repeats a name computes the same id twice from the heads
map loaded before the loop, so its second insert violates the status
table's key and the whole Update fails; such an Update is not
successful and writes nothing.) -/
theorem c2_status_chain_invariant (ctxAuth : Option AuthInfo) (now : Nat)
    (s : RepoState) (req : UpdateRequest) (up : DocumentUpdate)
    (hinv : statusInv s)
    (hok : (Update ctxAuth now s req).result = .ok up) :
    statusInv (Update ctxAuth now s req).state := by
  obtain ⟨d, mj, es, info, s2, s3, hm, hpre, hrs, hacl, hstate, hup⟩ :=
    Update_ok_decompose hok
  have hsv := stateAfterVersion_frame s req info d mj
  have hinv1 : statusInv (stateAfterVersion s req info d mj) :=
    statusInv_congr hsv.2.2.1.symm hsv.2.2.2.1.symm hinv
  have hinv2 : statusInv s2 := by
    refine runStatuses_inv req.UUID req.Updated req.Updater
      (upVersionOf req info)
      (fun n => headOf (stateAfterVersion s req info d mj) req.UUID n) es
      (stateAfterVersion s req info d mj) s2 hrs hinv1 ?_ ?_
    · intro n'
      exact headOf_nonneg hinv1.1 req.UUID n'
    · intro n'
      refine ⟨le_refl _, ?_⟩
      show headOf (stateAfterVersion s req info d mj) req.UUID n' ≤
        headOf (stateAfterVersion s req info d mj) req.UUID n' + 1
      omega
  have haf := updateACL_ok_frame hacl
  have hinv3 : statusInv s3 :=
    statusInv_congr haf.1.symm haf.2.2.2.1.symm hinv2
  rw [hstate]
  exact hinv3

/-- The empty database satisfies the status-chain invariant. -/
theorem statusInv_empty : statusInv RepoState.empty := by
  refine ⟨?_, ?_, ?_⟩
  · intro h hh
    cases hh
  · exact List.Pairwise.nil
  · intro u n i
    have hz : headOf RepoState.empty u n = 0 := rfl
    constructor
    · rintro ⟨r, hr, _⟩
      cases hr
    · rintro ⟨h1, h2⟩
      rw [hz] at h2
      omega

/-- A creation request writing two status names in one Update. -/
def reqC2 : UpdateRequest :=
  ⟨"u11", some (.json "{}"), none,
    [⟨"usable", 0, none⟩, ⟨"done", 0, none⟩], [], [], -1,
    "core://user/a", 70⟩

/-- C2 witness: one concrete successful Update out of the empty state
preserves the status-chain invariant. -/
theorem c2_status_chain_invariant_witness :
    (Update none 0 RepoState.empty reqC2).result =
      .ok ⟨1, 70, "core://user/a"⟩ ∧
    statusInv (Update none 0 RepoState.empty reqC2).state :=
  ⟨by decide,
   c2_status_chain_invariant none 0 RepoState.empty reqC2
     ⟨1, 70, "core://user/a"⟩ statusInv_empty (by decide)⟩

end ElephantRepo
